import Mathlib

set_option linter.unusedVariables false

/-!
Verification of the BaySeg spatial segmentation sampler (`bayseg/bayseg.py`)
against its natural-language specification.

The Python module implements a Gibbs sampler with embedded
Metropolis-Hastings steps over a hidden Markov random field.  Here the
relevant functions are shallowly embedded in Lean:

* machine floats are modelled by exact real numbers `ℝ`;
* Python integers are modelled by `ℤ` (or `ℕ` where the source value is a
  size or an index that is manifestly non-negative);
* random draws (`.rvs()`, `np.random.choice`, `np.random.uniform`) are
  modelled as oracle inputs: the sampler is a deterministic function of
  the drawn values, which are passed in explicitly;
* the SVD performed by `np.linalg.svd` is modelled by passing the factors
  `(v_l, d_l)` as inputs, with theorems hypothesising the factorisation
  property `cov = V ⬝ diagonal d ⬝ Vᵀ` that `np.linalg.svd` guarantees for
  a symmetric positive-definite argument;
* `np.linalg.inv`, which raises `LinAlgError` on a singular argument, is
  modelled in the error-refined definitions by `Except Unit`, with
  `Except.error ()` exactly when the determinant vanishes.
-/

namespace Bayseg

open Matrix

/-! ## define_neighborhood_system (bayseg.py lines 630-657)

The source receives the physical coordinates as an `(n, 1)` array in the
one-dimensional case; only the enumeration of the coordinates is used, not
their values.  Neighbour indices are Python integers, modelled by `ℤ`.
For `dim = 1` the source sets `neighbors[i] = [i+1]` when `i = 0`,
`[i-1]` when `i = N-1`, and `[i-1, i+1]` otherwise (the `i = 0` branch is
tested first). -/

def define_neighborhood_system (coordinates : List ℝ) : List (List ℤ) :=
  (List.range coordinates.length).map (fun (i : ℕ) =>
    if i = 0 then [(i : ℤ) + 1]
    else if i = coordinates.length - 1 then [(i : ℤ) - 1]
    else [(i : ℤ) - 1, (i : ℤ) + 1])

theorem define_neighborhood_system_length (coordinates : List ℝ) :
    (define_neighborhood_system coordinates).length = coordinates.length := by
  unfold define_neighborhood_system
  rw [List.length_map, List.length_range]

theorem define_neighborhood_system_getD (coordinates : List ℝ) (i : ℕ)
    (hi : i < coordinates.length) :
    (define_neighborhood_system coordinates).getD i [] =
      (if i = 0 then [(i : ℤ) + 1]
       else if i = coordinates.length - 1 then [(i : ℤ) - 1]
       else [(i : ℤ) - 1, (i : ℤ) + 1]) := by
  have hlen := define_neighborhood_system_length coordinates
  rw [List.getD_eq_getElem _ _ (hlen ▸ hi)]
  unfold define_neighborhood_system
  rw [List.getElem_map, List.getElem_range]

theorem define_neighborhood_system_mem_iff (coordinates : List ℝ)
    (i j : ℕ) (hi : i < coordinates.length)
    (hj : j < coordinates.length) :
    ((j : ℤ) ∈ (define_neighborhood_system coordinates).getD i []) ↔
      ((j : ℤ) = (i : ℤ) - 1 ∨ (j : ℤ) = (i : ℤ) + 1) := by
  rw [define_neighborhood_system_getD coordinates i hi]
  split_ifs with h1 h2 <;>
    simp only [List.mem_singleton, List.mem_cons, List.not_mem_nil, or_false] <;>
    omega

/-- C6 counterexample: on a single coordinate the source takes the `i = 0`
branch and returns the neighbour list `[1]`, not the claimed `[N - 2] = [-1]`,
so the claim fails for the one-site coordinate list. -/
theorem c6_counterexample :
    define_neighborhood_system [(0 : ℝ)] = [[1]] ∧
    (define_neighborhood_system [(0 : ℝ)]).getLast? ≠
      some [(([(0 : ℝ)].length : ℤ)) - 2] := by
  constructor
  · decide
  · decide

/-- C6 (amended): for every list of 1-D coordinates with a number of sites
different from 1, `define_neighborhood_system` gives the first site exactly
`[1]`, the last site exactly `[N - 2]`, and every interior site `i` exactly
`[i - 1, i + 1]`; on 5 sites it yields `[[1], [0,2], [1,3], [2,4], [3]]`. -/
theorem c6_neighborhood_lists (coordinates : List ℝ)
    (hN : coordinates.length ≠ 1) :
    (0 < coordinates.length →
      (define_neighborhood_system coordinates).getD 0 [] = [1]) ∧
    (0 < coordinates.length →
      (define_neighborhood_system coordinates).getD (coordinates.length - 1) [] =
        [(coordinates.length : ℤ) - 2]) ∧
    (∀ i : ℕ, 0 < i → i < coordinates.length - 1 →
      (define_neighborhood_system coordinates).getD i [] =
        [(i : ℤ) - 1, (i : ℤ) + 1]) ∧
    define_neighborhood_system [(0 : ℝ), 1, 2, 3, 4] =
      [[1], [0, 2], [1, 3], [2, 4], [3]] := by
  refine ⟨fun h0 => ?_, fun h0 => ?_, fun i h0 hlt => ?_, by decide⟩
  · rw [define_neighborhood_system_getD coordinates 0 h0]
    norm_num
  · rw [define_neighborhood_system_getD coordinates (coordinates.length - 1)
      (by omega)]
    have hne : coordinates.length - 1 ≠ 0 := by omega
    rw [if_neg hne, if_pos rfl]
    have : ((coordinates.length - 1 : ℕ) : ℤ) - 1 = (coordinates.length : ℤ) - 2 := by
      omega
    rw [this]
  · rw [define_neighborhood_system_getD coordinates i (by omega)]
    rw [if_neg (by omega), if_neg (by omega)]

theorem c6_witness :
    (define_neighborhood_system [(0 : ℝ), (1 : ℝ)]).getD
        ([(0 : ℝ), (1 : ℝ)].length - 1) [] =
      [(([(0 : ℝ), (1 : ℝ)].length : ℤ)) - 2] :=
  (c6_neighborhood_lists [(0 : ℝ), (1 : ℝ)] (by decide)).2.1 (by decide)

/-- C10 counterexample: on a single coordinate the source lists site `1` as a
neighbour of site `0`, but `1` is not a valid site index (there is only one
site), so the claim fails for the one-site coordinate list. -/
theorem c10_counterexample :
    ((1 : ℤ) ∈ (define_neighborhood_system [(0 : ℝ)]).getD 0 []) ∧
    ¬ ((1 : ℤ) < ([(0 : ℝ)].length : ℤ)) := by
  constructor
  · decide
  · decide

/-- C10 (amended): for every list of 1-D coordinates with a number of sites
different from 1, the neighbour graph built by `define_neighborhood_system`
is symmetric (site `i` appears in site `j`'s list iff site `j` appears in
site `i`'s list) and every listed neighbour index is a valid site index. -/
theorem c10_neighborhood_symmetric (coordinates : List ℝ)
    (hN : coordinates.length ≠ 1) :
    (∀ i : ℕ, i < coordinates.length →
      ∀ n ∈ (define_neighborhood_system coordinates).getD i [],
        0 ≤ n ∧ n < (coordinates.length : ℤ)) ∧
    (∀ i j : ℕ, i < coordinates.length → j < coordinates.length →
      (((j : ℤ) ∈ (define_neighborhood_system coordinates).getD i []) ↔
        ((i : ℤ) ∈ (define_neighborhood_system coordinates).getD j []))) := by
  constructor
  · intro i hi n hn
    rw [define_neighborhood_system_getD coordinates i hi] at hn
    split_ifs at hn with h1 h2 <;>
      simp only [List.mem_singleton, List.mem_cons, List.not_mem_nil,
        or_false] at hn <;>
      omega
  · intro i j hi hj
    rw [define_neighborhood_system_mem_iff coordinates i j hi hj,
      define_neighborhood_system_mem_iff coordinates j i hj hi]
    omega

theorem c10_witness :
    ((1 : ℤ) ∈ (define_neighborhood_system [(0 : ℝ), (1 : ℝ)]).getD 0 []) ↔
      ((0 : ℤ) ∈ (define_neighborhood_system [(0 : ℝ), (1 : ℝ)]).getD 1 []) :=
  (c10_neighborhood_symmetric [(0 : ℝ), (1 : ℝ)] (by decide)).2 0 1
    (by decide) (by decide)

/-! ## calc_gibbs_energy (bayseg.py lines 405-429), dim = 1 branch

The source initialises a zero array of shape `(n_elements, n_labels)` and,
for each site `x` with neighbour list `nl` (from `enumerate(self.neighborhood)`),
each neighbour `n` in `nl` and each label `l`, adds `beta` to
`gibbs_energy[x, l]` whenever `l != labels[n]`.  The accumulation is rendered
as a map-and-sum per entry; the label array is modelled as a total function
`ℤ → ℤ` (the source would raise `IndexError` on an out-of-range neighbour
index, which for valid 1-D neighbourhoods never occurs). -/

def gibbs_energy_entry (nl : List ℤ) (labels : ℤ → ℤ) (l : ℕ) (beta : ℝ) : ℝ :=
  (nl.map (fun n => if (l : ℤ) ≠ labels n then beta else 0)).sum

def calc_gibbs_energy (neighborhood : List (List ℤ)) (labels : ℤ → ℤ)
    (n_labels : ℕ) (beta : ℝ) : List (List ℝ) :=
  neighborhood.map (fun nl =>
    (List.range n_labels).map (fun l => gibbs_energy_entry nl labels l beta))

theorem gibbs_energy_entry_eq (nl : List ℤ) (labels : ℤ → ℤ) (l : ℕ)
    (beta : ℝ) :
    gibbs_energy_entry nl labels l beta =
      beta * ((nl.filter (fun n => (l : ℤ) ≠ labels n)).length : ℝ) := by
  induction nl with
  | nil => simp [gibbs_energy_entry]
  | cons a t ih =>
    by_cases h : (l : ℤ) ≠ labels a
    · rw [gibbs_energy_entry, List.map_cons, List.sum_cons, if_pos h,
        ← gibbs_energy_entry, ih, List.filter_cons_of_pos (by simpa using h)]
      simp only [List.length_cons]
      push_cast
      ring
    · rw [gibbs_energy_entry, List.map_cons, List.sum_cons, if_neg h,
        ← gibbs_energy_entry, ih, List.filter_cons_of_neg (by simpa using h)]
      ring

theorem filter_ne_add_filter_eq (nl : List ℤ) (labels : ℤ → ℤ) (c : ℤ) :
    (nl.filter (fun n => c ≠ labels n)).length +
      (nl.filter (fun n => labels n = c)).length = nl.length := by
  induction nl with
  | nil => simp
  | cons a t ih =>
    by_cases h : labels a = c
    · rw [List.filter_cons_of_neg (by simp [h]), List.filter_cons_of_pos (by simp [h])]
      simp only [List.length_cons]
      omega
    · rw [List.filter_cons_of_pos (by simpa using Ne.symm h),
        List.filter_cons_of_neg (by simpa using h)]
      simp only [List.length_cons]
      omega

/-- C2: every entry `[x, l]` of `calc_gibbs_energy` equals `beta` times the
number of neighbours `n` of site `x` whose label differs from `l`; in
particular a site with exactly two neighbours gets energy `2 * beta - beta *
(number of neighbours sharing label l)`, so with `beta = 1` the entry is `2`
when both neighbour labels differ from `l`, reduced by 1 for each agreeing
neighbour. -/
theorem c2_gibbs_energy_counts_disagreements (neighborhood : List (List ℤ))
    (labels : ℤ → ℤ) (n_labels : ℕ) (beta : ℝ) (x l : ℕ)
    (hx : x < neighborhood.length) (hl : l < n_labels) :
    (((calc_gibbs_energy neighborhood labels n_labels beta).getD x []).getD l 0 =
      beta * (((neighborhood.getD x []).filter
        (fun n => (l : ℤ) ≠ labels n)).length : ℝ)) ∧
    ((neighborhood.getD x []).length = 2 →
      ((calc_gibbs_energy neighborhood labels
          n_labels 1).getD x []).getD l 0 =
        2 - (((neighborhood.getD x []).filter
          (fun n => labels n = (l : ℤ))).length : ℝ)) := by
  have hentry : ∀ b : ℝ,
      ((calc_gibbs_energy neighborhood labels n_labels b).getD x []).getD l 0 =
        gibbs_energy_entry (neighborhood.getD x []) labels l b := by
    intro b
    have hx' : x < (calc_gibbs_energy neighborhood labels n_labels b).length := by
      unfold calc_gibbs_energy
      rw [List.length_map]
      exact hx
    rw [List.getD_eq_getElem _ _ hx']
    unfold calc_gibbs_energy
    rw [List.getElem_map]
    have hl' : l < ((List.range n_labels).map
        (fun k => gibbs_energy_entry neighborhood[x] labels k b)).length := by
      rw [List.length_map, List.length_range]
      exact hl
    rw [List.getD_eq_getElem _ _ hl', List.getElem_map, List.getElem_range,
      List.getD_eq_getElem _ _ hx]
  constructor
  · rw [hentry beta, gibbs_energy_entry_eq]
  · intro h2
    rw [hentry 1, gibbs_energy_entry_eq, one_mul]
    have hsum := filter_ne_add_filter_eq (neighborhood.getD x []) labels (l : ℤ)
    rw [h2] at hsum
    have : ((((neighborhood.getD x []).filter
          (fun n => (l : ℤ) ≠ labels n)).length : ℝ) +
        (((neighborhood.getD x []).filter
          (fun n => labels n = (l : ℤ))).length : ℝ)) = 2 := by
      exact_mod_cast congrArg (Nat.cast : ℕ → ℝ) hsum
    linarith

theorem c2_witness :
    ((calc_gibbs_energy [[1], [0, 2]] (fun n : ℤ => n) 2 1).getD 1 []).getD 0 0
      = 1 := by
  have h := (c2_gibbs_energy_counts_disagreements [[1], [0, 2]] (fun n : ℤ => n)
    2 1 1 0 (by decide) (by decide)).2 (by decide)
  simp only [h]
  norm_num

/-! ## calc_labels_prob (bayseg.py lines 616-618)

`(np.exp(-te/t).T / np.sum(np.exp(-te/t), axis=1)).T`: each entry is
`exp(-te[x,l]/t)` divided by the sum of `exp(-te[x,k]/t)` over the labels
`k` of the same row. -/

noncomputable def calc_labels_prob {N L : ℕ} (te : Matrix (Fin N) (Fin L) ℝ)
    (t : ℝ) : Matrix (Fin N) (Fin L) ℝ :=
  Matrix.of fun x l => Real.exp (-te x l / t) / (∑ k, Real.exp (-te x k / t))

/-- C5: for every (finite, real-valued) energy matrix with at least one label
column and every positive temperature `t`, `calc_labels_prob` returns the
row-wise softmax of `-energy/t`: every entry is non-negative and every row
sums to 1. -/
theorem c5_labels_prob_row_stochastic {N L : ℕ} (te : Matrix (Fin N) (Fin L) ℝ)
    (t : ℝ) (hL : 0 < L) (ht : 0 < t) :
    (∀ x l, 0 ≤ calc_labels_prob te t x l) ∧
    (∀ x, ∑ l, calc_labels_prob te t x l = 1) := by
  have hpos : ∀ x : Fin N, 0 < ∑ k, Real.exp (-te x k / t) := by
    intro x
    have : Nonempty (Fin L) := Fin.pos_iff_nonempty.mp hL
    exact Finset.sum_pos (fun k _ => Real.exp_pos _) Finset.univ_nonempty
  constructor
  · intro x l
    simp only [calc_labels_prob, Matrix.of_apply]
    exact div_nonneg (Real.exp_pos _).le (hpos x).le
  · intro x
    simp only [calc_labels_prob, Matrix.of_apply]
    rw [← Finset.sum_div]
    exact div_self (ne_of_gt (hpos x))

theorem c5_witness :
    (∀ x l, 0 ≤ calc_labels_prob (0 : Matrix (Fin 1) (Fin 2) ℝ) 1 x l) ∧
    (∀ x, ∑ l, calc_labels_prob (0 : Matrix (Fin 1) (Fin 2) ℝ) 1 x l = 1) :=
  c5_labels_prob_row_stochastic 0 1 (by decide) one_pos

/-! ## propose_cov (bayseg.py lines 544-593) and
_cov_proposal_rotation_matrix (lines 596-613)

`_cov_proposal_rotation_matrix(x, y, theta)` computes
`uu = x / |x|`, `vv = (y - (uu.T @ y) uu) / |y - (uu.T @ y) uu|` and returns
`I - uu uuᵀ - vv vvᵀ + [uu vv] R2(theta) [uu vv]ᵀ` with `R2` the 2×2 rotation.
The leading underscore of the Python name is dropped.

`propose_cov` draws `theta_jump` once (shared across labels) and, per label,
decomposes `cov_prev[l]` by `np.linalg.svd` into `v_l, d_l`, perturbs
`log(d_l)` by `log_d_jump`, left-multiplies the accumulated rotation `a`
(initialised to the identity) by the rotation matrix of each column pair of
`v_l` in `itertools.combinations` order, and returns
`(a v_l) diag(exp(log d_l + jump)) (a v_l)ᵀ`.

Random draws (`log_d_jump`, `theta_jump`) and the SVD factors (`v`, `d`) are
oracle inputs; theorems hypothesise `v l ⬝ diagonal (d l) ⬝ (v l)ᵀ = cov_prev l`,
the property `np.linalg.svd` guarantees on a symmetric positive-definite
argument, together with orthogonality of `v l`. -/

noncomputable def vec_norm {F : ℕ} (x : Fin F → ℝ) : ℝ :=
  Real.sqrt (∑ i, x i ^ 2)

noncomputable def rot_uu {F : ℕ} (x : Fin F → ℝ) : Fin F → ℝ :=
  fun i => x i / vec_norm x

noncomputable def rot_vv0 {F : ℕ} (x y : Fin F → ℝ) : Fin F → ℝ :=
  fun i => y i - (∑ j, rot_uu x j * y j) * rot_uu x i

noncomputable def rot_vv {F : ℕ} (x y : Fin F → ℝ) : Fin F → ℝ :=
  fun i => rot_vv0 x y i / vec_norm (rot_vv0 x y)

def pair_mat {F : ℕ} (uu vv : Fin F → ℝ) : Matrix (Fin F) (Fin 2) ℝ :=
  Matrix.of fun i k => if k = 0 then uu i else vv i

noncomputable def rot2 (theta : ℝ) : Matrix (Fin 2) (Fin 2) ℝ :=
  Matrix.of ![![Real.cos theta, -Real.sin theta],
              ![Real.sin theta, Real.cos theta]]

noncomputable def cov_proposal_rotation_matrix {F : ℕ} (x y : Fin F → ℝ)
    (theta : ℝ) : Matrix (Fin F) (Fin F) ℝ :=
  1 - Matrix.vecMulVec (rot_uu x) (rot_uu x)
    - Matrix.vecMulVec (rot_vv x y) (rot_vv x y)
    + pair_mat (rot_uu x) (rot_vv x y) * rot2 theta *
        (pair_mat (rot_uu x) (rot_vv x y))ᵀ

def comb_pairs (n_feat : ℕ) : List (Fin n_feat × Fin n_feat) :=
  (List.finRange n_feat).flatMap (fun i =>
    ((List.finRange n_feat).filter (fun j => i < j)).map (fun j => (i, j)))

noncomputable def rotation_product {F : ℕ} (v_l : Matrix (Fin F) (Fin F) ℝ)
    (theta_jump : ℕ → ℝ) : Matrix (Fin F) (Fin F) ℝ :=
  ((comb_pairs F).enum).foldl
    (fun a jp => cov_proposal_rotation_matrix
      (fun i => v_l i jp.2.1) (fun i => v_l i jp.2.2) (theta_jump jp.1) * a) 1

noncomputable def propose_cov_label {F : ℕ} (v_l : Matrix (Fin F) (Fin F) ℝ)
    (d_l : Fin F → ℝ) (log_d_jump : Fin F → ℝ) (theta_jump : ℕ → ℝ) :
    Matrix (Fin F) (Fin F) ℝ :=
  rotation_product v_l theta_jump * v_l *
    Matrix.diagonal (fun i => Real.exp (Real.log (d_l i) + log_d_jump i)) *
    (rotation_product v_l theta_jump * v_l)ᵀ

noncomputable def propose_cov {L F : ℕ} (v : Fin L → Matrix (Fin F) (Fin F) ℝ)
    (d : Fin L → Fin F → ℝ) (log_d_jump : Fin L → Fin F → ℝ)
    (theta_jump : ℕ → ℝ) : Fin L → Matrix (Fin F) (Fin F) ℝ :=
  fun l => propose_cov_label (v l) (d l) (log_d_jump l) theta_jump

theorem pair_mat_mul_transpose {F : ℕ} (uu vv : Fin F → ℝ) :
    pair_mat uu vv * (pair_mat uu vv)ᵀ =
      Matrix.vecMulVec uu uu + Matrix.vecMulVec vv vv := by
  ext i j
  rw [Matrix.mul_apply, Fin.sum_univ_two]
  simp [pair_mat, Matrix.vecMulVec_apply]

theorem rot2_zero : rot2 0 = 1 := by
  ext i j
  fin_cases i <;> fin_cases j <;>
    simp [rot2, Matrix.one_apply]

theorem rotation_matrix_zero {F : ℕ} (x y : Fin F → ℝ) :
    cov_proposal_rotation_matrix x y 0 = 1 := by
  rw [cov_proposal_rotation_matrix, rot2_zero, Matrix.mul_one,
    pair_mat_mul_transpose]
  abel

theorem foldl_mul_one {α : Type*} {F : ℕ} (ls : List α)
    (f : α → Matrix (Fin F) (Fin F) ℝ) (hf : ∀ a ∈ ls, f a = 1)
    (acc : Matrix (Fin F) (Fin F) ℝ) :
    ls.foldl (fun A a => f a * A) acc = acc := by
  induction ls generalizing acc with
  | nil => rfl
  | cons a t ih =>
    rw [List.foldl_cons, hf a (List.mem_cons_self a t), one_mul]
    exact ih (fun b hb => hf b (List.mem_cons_of_mem a hb)) acc

/-- With both draw vectors zero (the means of the degenerate zero-jump
proposal distributions), the `propose_cov` reconstruction returns a stack
numerically equal to the input.  The SVD factors `v l, d l` of each layer
are hypothesised to satisfy the factorisation `np.linalg.svd` guarantees on
a symmetric positive-definite input (positive singular values).  This is a
statement about the reconstruction only: claim C4's theorem below pairs it
with the draw-construction failure of the zero-jump call itself. -/
theorem propose_cov_zero_draw_reconstruction {L F : ℕ}
    (cov_prev : Fin L → Matrix (Fin F) (Fin F) ℝ)
    (v : Fin L → Matrix (Fin F) (Fin F) ℝ) (d : Fin L → Fin F → ℝ)
    (hd : ∀ l i, 0 < d l i)
    (hsvd : ∀ l, v l * Matrix.diagonal (d l) * (v l)ᵀ = cov_prev l) :
    propose_cov v d (fun _ _ => 0) (fun _ => 0) = cov_prev := by
  funext l
  rw [propose_cov, propose_cov_label]
  have hrot : rotation_product (v l) (fun _ => 0) = 1 := by
    rw [rotation_product]
    exact foldl_mul_one _ _ (fun jp _ => rotation_matrix_zero _ _) 1
  have hdiag : (fun i => Real.exp (Real.log (d l i) + 0)) = d l := by
    funext i
    rw [add_zero, Real.exp_log (hd l i)]
  rw [hrot, Matrix.one_mul, hdiag, hsvd l]

/-! ### The draw-construction error path of propose_cov (claim C4)

Before any reconstruction, `propose_cov` constructs its proposal
distributions: `theta_jump` is drawn once from
`multivariate_normal(mean=[0]*n_comb, cov=np.ones(n_comb)*theta_jump_length)`
(line 558), and inside the label loop `log_d_jump` is drawn from
`multivariate_normal(mean=[0]*n_feat, cov=np.eye(n_feat)*cov_jump_length)`
(line 568).  scipy constructs these with `allow_singular=False` and raises
`numpy.linalg.LinAlgError` when the covariance matrix is singular — in
particular whenever the jump length is 0 and the dimension is positive, so
the zero-jump call never returns.  `propose_cov_e` refines `propose_cov`
with exactly this singularity check, expressed through the determinant of
each proposal covariance: `det(ones(n_comb)·tjl) = tjl ^ n_comb` and
`det(eye(n_feat)·cjl) = cjl ^ n_feat` (the latter check only fires when the
label loop runs at least once, i.e. `0 < L`).  Only the singular-matrix
raise is modelled; a negative jump length would raise a different scipy
error, outside this refinement.  On success the draws are the oracle
values, as in `propose_cov`. -/
noncomputable def propose_cov_e {L F : ℕ}
    (v : Fin L → Matrix (Fin F) (Fin F) ℝ) (d : Fin L → Fin F → ℝ)
    (cov_jump_length theta_jump_length : ℝ)
    (log_d_jump : Fin L → Fin F → ℝ) (theta_jump : ℕ → ℝ) :
    Except Unit (Fin L → Matrix (Fin F) (Fin F) ℝ) :=
  if theta_jump_length ^ (comb_pairs F).length = 0 then Except.error ()
  else if cov_jump_length ^ F = 0 ∧ 0 < L then Except.error ()
  else Except.ok (propose_cov v d log_d_jump theta_jump)

theorem comb_pairs_length_pos {F : ℕ} (hF : 2 ≤ F) :
    0 < (comb_pairs F).length := by
  have hmem : ((⟨0, by omega⟩ : Fin F), (⟨1, by omega⟩ : Fin F)) ∈
      comb_pairs F := by
    rw [comb_pairs, List.mem_flatMap]
    refine ⟨⟨0, by omega⟩, List.mem_finRange _, ?_⟩
    rw [List.mem_map]
    refine ⟨⟨1, by omega⟩, ?_, rfl⟩
    rw [List.mem_filter]
    exact ⟨List.mem_finRange _, by simp [Fin.lt_def]⟩
  exact List.length_pos.mpr (List.ne_nil_of_mem hmem)

/-- C4 counterexample: at the claim's own input — a symmetric
positive-definite stack (here one identity layer over two features) with
`cov_jump_length = 0` and `theta_jump_length = 0` — the call raises (scipy
rejects the singular zero-covariance proposal distribution at line 558)
instead of returning a stack numerically equal to the input. -/
theorem c4_counterexample :
    propose_cov_e (fun _ : Fin 1 => (1 : Matrix (Fin 2) (Fin 2) ℝ))
        (fun _ _ => 1) 0 0 (fun _ _ => 0) (fun _ => 0) = Except.error () ∧
    propose_cov_e (fun _ : Fin 1 => (1 : Matrix (Fin 2) (Fin 2) ℝ))
        (fun _ _ => 1) 0 0 (fun _ _ => 0) (fun _ => 0) ≠
      Except.ok (fun _ : Fin 1 => (1 : Matrix (Fin 2) (Fin 2) ℝ)) := by
  have herr : propose_cov_e (fun _ : Fin 1 => (1 : Matrix (Fin 2) (Fin 2) ℝ))
      (fun _ _ => 1) 0 0 (fun _ _ => 0) (fun _ => 0) = Except.error () := by
    rw [propose_cov_e, if_pos]
    exact zero_pow (comb_pairs_length_pos (by norm_num)).ne'
  exact ⟨herr, by rw [herr]; exact fun hcontra => Except.noConfusion hcontra⟩

/-- C4 (amended): for every symmetric positive-definite covariance stack
with at least one feature and at least one label, calling `propose_cov`
with `cov_jump_length = 0` and `theta_jump_length = 0` raises — scipy
refuses the singular zero-covariance proposal distributions, so the call
never returns — rather than returning the input.  The zero-jump operation
is the identity transform only at the reconstruction level: with the
degenerate draws equal to their zero means, the reconstruction returns a
covariance stack numerically equal to the input. -/
theorem c4_zero_jump_raises_reconstruction_identity {L F : ℕ}
    (cov_prev : Fin L → Matrix (Fin F) (Fin F) ℝ)
    (v : Fin L → Matrix (Fin F) (Fin F) ℝ) (d : Fin L → Fin F → ℝ)
    (hd : ∀ l i, 0 < d l i)
    (hsvd : ∀ l, v l * Matrix.diagonal (d l) * (v l)ᵀ = cov_prev l) :
    (∀ (lj : Fin L → Fin F → ℝ) (tj : ℕ → ℝ), 0 < F → 0 < L →
      propose_cov_e v d 0 0 lj tj = Except.error ()) ∧
    propose_cov v d (fun _ _ => 0) (fun _ => 0) = cov_prev := by
  constructor
  · intro lj tj hF hL
    by_cases h2 : 2 ≤ F
    · rw [propose_cov_e, if_pos]
      exact zero_pow (comb_pairs_length_pos h2).ne'
    · have hF1 : F = 1 := by omega
      subst hF1
      have hc : (comb_pairs 1).length = 0 := by decide
      rw [propose_cov_e, hc, pow_zero, if_neg one_ne_zero,
        if_pos ⟨by rw [pow_one], hL⟩]
  · exact propose_cov_zero_draw_reconstruction cov_prev v d hd hsvd

theorem c4_witness :
    propose_cov_e (fun _ : Fin 1 => (1 : Matrix (Fin 2) (Fin 2) ℝ))
        (fun _ _ => 1) 0 0 (fun _ _ => 1) (fun _ => 1) = Except.error () ∧
    propose_cov (fun _ : Fin 1 => (1 : Matrix (Fin 2) (Fin 2) ℝ))
        (fun _ _ => 1) (fun _ _ => 0) (fun _ => 0) =
      (fun _ : Fin 1 => (1 : Matrix (Fin 2) (Fin 2) ℝ)) := by
  have h := c4_zero_jump_raises_reconstruction_identity
    (fun _ : Fin 1 => (1 : Matrix (Fin 2) (Fin 2) ℝ))
    (fun _ : Fin 1 => (1 : Matrix (Fin 2) (Fin 2) ℝ)) (fun _ _ => 1)
    (fun _ _ => one_pos) (fun _ => by simp)
  exact ⟨h.1 (fun _ _ => 1) (fun _ => 1) (by norm_num) (by norm_num), h.2⟩

theorem vec_norm_of_unit {F : ℕ} {x : Fin F → ℝ} (hx : ∑ i, x i ^ 2 = 1) :
    vec_norm x = 1 := by
  rw [vec_norm, hx, Real.sqrt_one]

theorem rot_uu_of_unit {F : ℕ} {x : Fin F → ℝ} (hx : ∑ i, x i ^ 2 = 1) :
    rot_uu x = x := by
  funext i
  rw [rot_uu, vec_norm_of_unit hx, div_one]

theorem rot_vv_of_orthonormal {F : ℕ} {x y : Fin F → ℝ}
    (hx : ∑ i, x i ^ 2 = 1) (hy : ∑ i, y i ^ 2 = 1)
    (hxy : ∑ i, x i * y i = 0) : rot_vv x y = y := by
  have h0 : rot_vv0 x y = y := by
    funext i
    rw [rot_vv0, rot_uu_of_unit hx, hxy, zero_mul, sub_zero]
  funext i
  rw [rot_vv, h0, vec_norm_of_unit hy, div_one]

theorem pair_mat_transpose_mul {F : ℕ} {x y : Fin F → ℝ}
    (hx : ∑ i, x i ^ 2 = 1) (hy : ∑ i, y i ^ 2 = 1)
    (hxy : ∑ i, x i * y i = 0) :
    (pair_mat x y)ᵀ * pair_mat x y = 1 := by
  ext k j
  rw [Matrix.mul_apply]
  fin_cases k <;> fin_cases j <;>
    simp only [pair_mat, Matrix.transpose_apply, Matrix.of_apply,
      Matrix.one_apply, if_true, if_false, Fin.zero_eta, Fin.mk_one,
      reduceCtorEq, ite_true, ite_false]
  · simpa [sq] using hx
  · simpa using hxy
  · simpa [mul_comm] using hxy
  · simpa [sq] using hy

theorem rot2_transpose_mul (theta : ℝ) : (rot2 theta)ᵀ * rot2 theta = 1 := by
  ext k j
  rw [Matrix.mul_apply, Fin.sum_univ_two]
  fin_cases k <;> fin_cases j <;>
    simp [rot2, Matrix.one_apply] <;>
    nlinarith [Real.sin_sq_add_cos_sq theta]

theorem rotation_matrix_orthonormal {F : ℕ} {x y : Fin F → ℝ} (theta : ℝ)
    (hx : ∑ i, x i ^ 2 = 1) (hy : ∑ i, y i ^ 2 = 1)
    (hxy : ∑ i, x i * y i = 0) :
    (cov_proposal_rotation_matrix x y theta)ᵀ *
      cov_proposal_rotation_matrix x y theta = 1 := by
  have hW : (pair_mat x y)ᵀ * pair_mat x y = 1 :=
    pair_mat_transpose_mul hx hy hxy
  have hG : (rot2 theta)ᵀ * rot2 theta = 1 := rot2_transpose_mul theta
  set W := pair_mat x y with hWdef
  set G := rot2 theta with hGdef
  have hR : cov_proposal_rotation_matrix x y theta =
      1 - W * Wᵀ + W * G * Wᵀ := by
    rw [cov_proposal_rotation_matrix, rot_uu_of_unit hx,
      rot_vv_of_orthonormal hx hy hxy, ← hWdef, pair_mat_mul_transpose]
    abel
  rw [hR]
  have hT : (1 - W * Wᵀ + W * G * Wᵀ)ᵀ = 1 - W * Wᵀ + W * Gᵀ * Wᵀ := by
    rw [Matrix.transpose_add, Matrix.transpose_sub, Matrix.transpose_one,
      Matrix.transpose_mul, Matrix.transpose_mul, Matrix.transpose_mul,
      Matrix.transpose_transpose]
    rw [Matrix.mul_assoc]
  rw [hT]
  have hPP : (W * Wᵀ) * (W * Wᵀ) = W * Wᵀ := by
    rw [Matrix.mul_assoc, ← Matrix.mul_assoc Wᵀ W Wᵀ, hW, Matrix.one_mul]
  have hPB : (W * Wᵀ) * (W * G * Wᵀ) = W * G * Wᵀ := by
    rw [Matrix.mul_assoc W Wᵀ _, ← Matrix.mul_assoc Wᵀ (W * G) Wᵀ,
      ← Matrix.mul_assoc Wᵀ W G, hW, Matrix.one_mul, ← Matrix.mul_assoc]
  have hB'P : (W * Gᵀ * Wᵀ) * (W * Wᵀ) = W * Gᵀ * Wᵀ := by
    rw [Matrix.mul_assoc (W * Gᵀ) Wᵀ _, ← Matrix.mul_assoc Wᵀ W Wᵀ, hW,
      Matrix.one_mul]
  have hB'B : (W * Gᵀ * Wᵀ) * (W * G * Wᵀ) = W * Wᵀ := by
    rw [Matrix.mul_assoc (W * Gᵀ) Wᵀ _, ← Matrix.mul_assoc Wᵀ (W * G) Wᵀ,
      ← Matrix.mul_assoc Wᵀ W G, hW, Matrix.one_mul,
      ← Matrix.mul_assoc (W * Gᵀ) G Wᵀ, Matrix.mul_assoc W Gᵀ G, hG,
      Matrix.mul_one]
  have hPX : (W * Wᵀ) * (1 - W * Wᵀ + W * G * Wᵀ) = W * G * Wᵀ := by
    rw [mul_add, mul_sub, mul_one, hPP, hPB]
    abel
  have hB'X : (W * Gᵀ * Wᵀ) * (1 - W * Wᵀ + W * G * Wᵀ) = W * Wᵀ := by
    rw [mul_add, mul_sub, mul_one, hB'P, hB'B]
    abel
  calc (1 - W * Wᵀ + W * Gᵀ * Wᵀ) * (1 - W * Wᵀ + W * G * Wᵀ)
      = (1 - W * Wᵀ + W * G * Wᵀ) - (W * Wᵀ) * (1 - W * Wᵀ + W * G * Wᵀ) +
          (W * Gᵀ * Wᵀ) * (1 - W * Wᵀ + W * G * Wᵀ) := by
        rw [add_mul, sub_mul, one_mul]
  _ = (1 - W * Wᵀ + W * G * Wᵀ) - W * G * Wᵀ + W * Wᵀ := by rw [hPX, hB'X]
  _ = 1 := by abel

theorem comb_pairs_ne {n : ℕ} {p : Fin n × Fin n} (hp : p ∈ comb_pairs n) :
    p.1 ≠ p.2 := by
  rw [comb_pairs, List.mem_flatMap] at hp
  obtain ⟨i, _, hp⟩ := hp
  rw [List.mem_map] at hp
  obtain ⟨j, hj, rfl⟩ := hp
  rw [List.mem_filter] at hj
  exact ne_of_lt (by simpa using hj.2)

theorem orthogonal_column_sq {F : ℕ} {V : Matrix (Fin F) (Fin F) ℝ}
    (hV : Vᵀ * V = 1) (a : Fin F) : ∑ i, V i a ^ 2 = 1 := by
  have h := congrFun (congrFun hV a) a
  rw [Matrix.mul_apply, Matrix.one_apply_eq] at h
  simpa [Matrix.transpose_apply, sq] using h

theorem orthogonal_column_dot {F : ℕ} {V : Matrix (Fin F) (Fin F) ℝ}
    (hV : Vᵀ * V = 1) {a b : Fin F} (hab : a ≠ b) :
    ∑ i, V i a * V i b = 0 := by
  have h := congrFun (congrFun hV a) b
  rw [Matrix.mul_apply, Matrix.one_apply_ne hab] at h
  simpa [Matrix.transpose_apply] using h

theorem foldl_orth {α : Type*} {F : ℕ} (ls : List α)
    (f : α → Matrix (Fin F) (Fin F) ℝ)
    (hf : ∀ a ∈ ls, (f a)ᵀ * f a = 1) (acc : Matrix (Fin F) (Fin F) ℝ)
    (hacc : accᵀ * acc = 1) :
    (ls.foldl (fun A a => f a * A) acc)ᵀ *
      ls.foldl (fun A a => f a * A) acc = 1 := by
  induction ls generalizing acc with
  | nil => exact hacc
  | cons a t ih =>
    rw [List.foldl_cons]
    refine ih (fun b hb => hf b (List.mem_cons_of_mem a hb)) (f a * acc) ?_
    rw [Matrix.transpose_mul, Matrix.mul_assoc,
      ← Matrix.mul_assoc (f a)ᵀ (f a) acc, hf a (List.mem_cons_self a t),
      Matrix.one_mul, hacc]

theorem rotation_product_orth {F : ℕ} {v_l : Matrix (Fin F) (Fin F) ℝ}
    (hv : v_lᵀ * v_l = 1) (theta_jump : ℕ → ℝ) :
    (rotation_product v_l theta_jump)ᵀ * rotation_product v_l theta_jump = 1 := by
  rw [rotation_product]
  refine foldl_orth _ _ ?_ 1 (by rw [Matrix.transpose_one, Matrix.one_mul])
  intro jp hjp
  have hmem : jp.2 ∈ comb_pairs F := by
    rw [List.mem_enum_iff_getElem?] at hjp
    exact List.getElem?_mem hjp
  exact rotation_matrix_orthonormal _ (orthogonal_column_sq hv _)
    (orthogonal_column_sq hv _) (orthogonal_column_dot hv (comb_pairs_ne hmem))

theorem posDef_conj {F : ℕ} {B D : Matrix (Fin F) (Fin F) ℝ} (hD : D.PosDef)
    (hB : Bᵀ * B = 1) : (B * D * Bᵀ).PosDef := by
  have hBBt : B * Bᵀ = 1 := Matrix.mul_eq_one_comm.mp hB
  constructor
  · have hsd := (Matrix.PosSemidef.mul_mul_conjTranspose_same hD.posSemidef B).1
    rwa [Matrix.conjTranspose_eq_transpose_of_trivial] at hsd
  · intro xv hxv
    have hy : Bᵀ *ᵥ xv ≠ 0 := by
      intro h0
      apply hxv
      calc xv = (1 : Matrix (Fin F) (Fin F) ℝ) *ᵥ xv := by
            rw [Matrix.one_mulVec]
      _ = B *ᵥ (Bᵀ *ᵥ xv) := by rw [← hBBt, ← Matrix.mulVec_mulVec]
      _ = 0 := by rw [h0, Matrix.mulVec_zero]
    have hpos := hD.2 (Bᵀ *ᵥ xv) hy
    have hrw : star xv ⬝ᵥ ((B * D * Bᵀ) *ᵥ xv) =
        star (Bᵀ *ᵥ xv) ⬝ᵥ (D *ᵥ (Bᵀ *ᵥ xv)) := by
      rw [show star xv = xv from star_trivial xv,
        show star (Bᵀ *ᵥ xv) = Bᵀ *ᵥ xv from star_trivial _]
      rw [← Matrix.mulVec_mulVec, ← Matrix.mulVec_mulVec,
        Matrix.dotProduct_mulVec xv B, Matrix.mulVec_transpose]
    rw [hrw]
    exact hpos

theorem propose_cov_label_posDef {F : ℕ} {v_l : Matrix (Fin F) (Fin F) ℝ}
    (d_l : Fin F → ℝ) (log_d_jump : Fin F → ℝ) (theta_jump : ℕ → ℝ)
    (hv : v_lᵀ * v_l = 1) :
    (propose_cov_label v_l d_l log_d_jump theta_jump).PosDef ∧
      (propose_cov_label v_l d_l log_d_jump theta_jump).IsSymm := by
  have hvp : (rotation_product v_l theta_jump * v_l)ᵀ *
      (rotation_product v_l theta_jump * v_l) = 1 := by
    rw [Matrix.transpose_mul, Matrix.mul_assoc,
      ← Matrix.mul_assoc (rotation_product v_l theta_jump)ᵀ _ v_l,
      rotation_product_orth hv theta_jump, Matrix.one_mul, hv]
  have hdiag : (Matrix.diagonal
      (fun i => Real.exp (Real.log (d_l i) + log_d_jump i))).PosDef :=
    Matrix.PosDef.diagonal (fun i => Real.exp_pos _)
  have hpd : (propose_cov_label v_l d_l log_d_jump theta_jump).PosDef := by
    rw [propose_cov_label]
    exact posDef_conj hdiag hvp
  refine ⟨hpd, ?_⟩
  have := hpd.1
  rwa [Matrix.IsHermitian, Matrix.conjTranspose_eq_transpose_of_trivial] at this

/-! ## The sampler object (BaySeg.__init__, bayseg.py lines 20-85)

`BaySegParams` holds the per-instance data that `gibbs_sample` reads:
the observations, the neighbourhood (here in its `Fin`-typed form, as used
by the sampler on a valid 1-D chain), and the prior hyperparameters fixed by
`__init__`: `prior_beta = norm(beta_init, 100)`, `priors_mu[l] =
multivariate_normal(mus[0][l], eye(n_feat) * 100)`, `b_sigma` (from the
initial GMM covariances), `kesi = 100` everywhere and `nu = n_feat + 1`
(the latter two are hard-coded below exactly as `__init__` fixes them).

All random draws consumed by one call of `gibbs_sample`
(`np.random.choice` for the labels, the three proposal `.rvs()` draws and
the `np.random.uniform()` acceptance draws) are collected in `GibbsDraws`
and passed as oracle inputs. -/

noncomputable def multivariate_normal_pdf {F : ℕ} (mean : Fin F → ℝ)
    (cov : Matrix (Fin F) (Fin F) ℝ) (x : Fin F → ℝ) : ℝ :=
  Real.exp (-(1/2) *
      ((fun i => x i - mean i) ⬝ᵥ (cov⁻¹ *ᵥ (fun i => x i - mean i)))) /
    Real.sqrt ((2 * Real.pi) ^ F * cov.det)

noncomputable def norm_pdf (loc scale x : ℝ) : ℝ :=
  Real.exp (-((x - loc) ^ 2) / (2 * scale ^ 2)) /
    (scale * Real.sqrt (2 * Real.pi))

structure BaySegParams (N L F : ℕ) where
  obs : Fin N → Fin F → ℝ
  neighborhood : Fin N → List (Fin N)
  beta_init : ℝ
  prior_mu_mean : Fin L → Fin F → ℝ
  b_sigma : Fin L → Fin F → ℝ

structure GibbsDraws (N L F : ℕ) where
  new_labels : Fin N → ℕ
  beta_prop : ℝ
  mu_prop : Matrix (Fin L) (Fin F) ℝ
  cov_prop : Fin L → Matrix (Fin F) (Fin F) ℝ
  mu_unif : Fin L → ℝ
  cov_unif : Fin L → ℝ
  beta_unif : ℝ

/-- The four append-only history lists of the sampler object
(`self.labels`, `self.mus`, `self.covs`, `self.betas`). -/
structure BaySegState (N L F : ℕ) where
  labels : List (Fin N → ℕ)
  mus : List (Matrix (Fin L) (Fin F) ℝ)
  covs : List (Fin L → Matrix (Fin F) (Fin F) ℝ)
  betas : List ℝ

/-- np.zeros(n_labels), broadcast over the sites when added to an
`(n_elements, n_labels)` energy array; reserved for per-site label pinning
and always zero. -/
def self_energy {N L : ℕ} : Matrix (Fin N) (Fin L) ℝ := 0

/-- calc_gibbs_energy (lines 405-429) in the `Fin`-typed form used inside
the sampler model; `calc_gibbs_energy` above is the list-level rendering of
the same loops. -/
noncomputable def gibbs_energy_mat {N L : ℕ}
    (neighborhood : Fin N → List (Fin N)) (labels : Fin N → ℕ) (beta : ℝ) :
    Matrix (Fin N) (Fin L) ℝ :=
  Matrix.of fun x l =>
    ((neighborhood x).map (fun n => if (l : ℕ) ≠ labels n then beta else 0)).sum

/-- calc_energy_like (lines 384-403).  The result array is initialised to
zeros and filled only in the `self.dim == 1` branch; for any other `dim` the
zero array is returned unchanged (the silent no-op behind claim C8). -/
noncomputable def calc_energy_like {N L F : ℕ} (dim : ℕ)
    (obs : Fin N → Fin F → ℝ) (mu : Matrix (Fin L) (Fin F) ℝ)
    (cov : Fin L → Matrix (Fin F) (Fin F) ℝ) : Matrix (Fin N) (Fin L) ℝ :=
  if dim = 1 then
    Matrix.of fun x l =>
      (1/2) * ((fun i => obs x i - mu l i) ⬝ᵥ
        ((cov l)⁻¹ *ᵥ (fun i => obs x i - mu l i))) +
      (1/2) * Real.log (cov l).det
  else 0

/-- calc_gibbs_energy with its dimension branch (lines 412-429): for
`dim = 1` the energy array is built; for any other `dim` every branch is
`pass`, so the `return gibbs_energy` statement raises an unbound-local
error, modelled by `Except.error ()`. -/
noncomputable def calc_gibbs_energy_dim {N L : ℕ} (dim : ℕ)
    (neighborhood : Fin N → List (Fin N)) (labels : Fin N → ℕ) (beta : ℝ) :
    Except Unit (Matrix (Fin N) (Fin L) ℝ) :=
  if dim = 1 then Except.ok (gibbs_energy_mat neighborhood labels beta)
  else Except.error ()

/-- log_prior_density_mu (lines 304-311): `priors_mu[label].pdf(mu)`
evaluates the label's prior pdf at every row of the `(n_labels, n_feat)`
matrix `mu`, and `np.sum(np.log(...))` adds the logs over the rows. -/
noncomputable def log_prior_density_mu {N L F : ℕ} (p : BaySegParams N L F)
    (mu : Matrix (Fin L) (Fin F) ℝ) (label : Fin L) : ℝ :=
  ∑ r : Fin L, Real.log (multivariate_normal_pdf (p.prior_mu_mean label)
    (Matrix.diagonal (fun _ => (100 : ℝ))) (mu r))

/-- log_prior_density_beta (lines 313-319). -/
noncomputable def log_prior_density_beta {N L F : ℕ} (p : BaySegParams N L F)
    (beta : ℝ) : ℝ :=
  Real.log (norm_pdf p.beta_init 100 beta)

/-- The correlation matrix `r = diag(1/lam) @ cov[l] @ diag(1/lam)` with
`lam = sqrt(diag(cov[l]))`, from log_prior_density_cov (lines 328-329). -/
noncomputable def cov_corr {F : ℕ} (m : Matrix (Fin F) (Fin F) ℝ) :
    Matrix (Fin F) (Fin F) ℝ :=
  Matrix.diagonal (fun i => 1 / Real.sqrt (m i i)) * m *
    Matrix.diagonal (fun i => 1 / Real.sqrt (m i i))

/-- log_prior_density_cov (lines 321-332), total model: `nu = n_feat + 1`
and `kesi = 100` as fixed by `__init__`; `np.linalg.inv` is modelled by the
Mathlib nonsingular inverse.  The `Except`-refined version
`log_prior_density_cov_e` below captures the `LinAlgError` raised by
`np.linalg.inv` on a singular correlation matrix. -/
noncomputable def log_prior_density_cov {N L F : ℕ} (p : BaySegParams N L F)
    (cov : Fin L → Matrix (Fin F) (Fin F) ℝ) (l : Fin L) : ℝ :=
  (-(1/2) * ((F + 1 : ℝ) + F + 1) * Real.log (cov_corr (cov l)).det -
    (F + 1 : ℝ) / 2 * ∑ i, Real.log (((cov_corr (cov l))⁻¹) i i)) +
  Real.log (multivariate_normal_pdf (p.b_sigma l)
    (Matrix.diagonal (fun _ => (100 : ℝ)))
    (fun i => Real.log (Real.sqrt (cov l i i))))

/-- calc_sum_log_mixture_density (lines 364-382). -/
noncomputable def calc_sum_log_mixture_density {N L F : ℕ}
    (p : BaySegParams N L F) (comp_coef : Matrix (Fin N) (Fin L) ℝ)
    (mu : Matrix (Fin L) (Fin F) ℝ)
    (cov : Fin L → Matrix (Fin F) (Fin F) ℝ) : ℝ :=
  ∑ x, Real.log (∑ l, comp_coef x l *
    multivariate_normal_pdf (mu l) (cov l) (p.obs x))

/-- The MU acceptance ratio of one step of the UPDATE MU loop
(lines 180-196): the candidate matrix `mu_temp` substitutes only label `l`'s
proposed row into the working matrix. -/
noncomputable def mu_update_acc {N L F : ℕ} (p : BaySegParams N L F)
    (comp_coef : Matrix (Fin N) (Fin L) ℝ)
    (cov_next : Fin L → Matrix (Fin F) (Fin F) ℝ)
    (mu_prop : Matrix (Fin L) (Fin F) ℝ)
    (mu_next : Matrix (Fin L) (Fin F) ℝ) (l : Fin L) : ℝ :=
  Real.exp
    ((calc_sum_log_mixture_density p comp_coef
        (mu_next.updateRow l (mu_prop l)) cov_next +
      log_prior_density_mu p (mu_next.updateRow l (mu_prop l)) l) -
     (calc_sum_log_mixture_density p comp_coef mu_next cov_next +
      log_prior_density_mu p mu_next l))

/-- One step of the UPDATE MU loop (lines 177-203): substitute label `l`'s
proposed mean row into the working matrix, compare log targets, and commit
the row on acceptance. -/
noncomputable def mu_update_step {N L F : ℕ} (p : BaySegParams N L F)
    (comp_coef : Matrix (Fin N) (Fin L) ℝ)
    (cov_next : Fin L → Matrix (Fin F) (Fin F) ℝ)
    (mu_prop : Matrix (Fin L) (Fin F) ℝ) (mu_unif : Fin L → ℝ)
    (mu_next : Matrix (Fin L) (Fin F) ℝ) (l : Fin L) :
    Matrix (Fin L) (Fin F) ℝ :=
  if mu_update_acc p comp_coef cov_next mu_prop mu_next l > 1 ∨
      mu_unif l < mu_update_acc p comp_coef cov_next mu_prop mu_next l
  then mu_next.updateRow l (mu_prop l) else mu_next

/-- The UPDATE MU loop: `for l in range(self.n_labels)` in increasing label
order over the working matrix `mu_next`. -/
noncomputable def mu_update_phase {N L F : ℕ} (p : BaySegParams N L F)
    (comp_coef : Matrix (Fin N) (Fin L) ℝ)
    (cov_next : Fin L → Matrix (Fin F) (Fin F) ℝ)
    (mu_prop : Matrix (Fin L) (Fin F) ℝ) (mu_unif : Fin L → ℝ)
    (mu0 : Matrix (Fin L) (Fin F) ℝ) : Matrix (Fin L) (Fin F) ℝ :=
  (List.finRange L).foldl (mu_update_step p comp_coef cov_next mu_prop mu_unif) mu0

/-- The COV acceptance ratio of one step of the UPDATE COVARIANCE loop
(lines 209-231): the candidate stack `cov_temp` substitutes only label `l`'s
proposed layer into the working stack. -/
noncomputable def cov_update_acc {N L F : ℕ} (p : BaySegParams N L F)
    (comp_coef : Matrix (Fin N) (Fin L) ℝ) (mu_next : Matrix (Fin L) (Fin F) ℝ)
    (cov_prop : Fin L → Matrix (Fin F) (Fin F) ℝ)
    (cov_next : Fin L → Matrix (Fin F) (Fin F) ℝ) (l : Fin L) : ℝ :=
  Real.exp
    ((calc_sum_log_mixture_density p comp_coef mu_next
        (Function.update cov_next l (cov_prop l)) +
      log_prior_density_cov p (Function.update cov_next l (cov_prop l)) l) -
     (calc_sum_log_mixture_density p comp_coef mu_next cov_next +
      log_prior_density_cov p cov_next l))

/-- One step of the UPDATE COVARIANCE loop (lines 206-239). -/
noncomputable def cov_update_step {N L F : ℕ} (p : BaySegParams N L F)
    (comp_coef : Matrix (Fin N) (Fin L) ℝ) (mu_next : Matrix (Fin L) (Fin F) ℝ)
    (cov_prop : Fin L → Matrix (Fin F) (Fin F) ℝ) (cov_unif : Fin L → ℝ)
    (cov_next : Fin L → Matrix (Fin F) (Fin F) ℝ) (l : Fin L) :
    Fin L → Matrix (Fin F) (Fin F) ℝ :=
  if cov_update_acc p comp_coef mu_next cov_prop cov_next l > 1 ∨
      cov_unif l < cov_update_acc p comp_coef mu_next cov_prop cov_next l
  then Function.update cov_next l (cov_prop l) else cov_next

/-- The UPDATE COVARIANCE loop, run on the working stack `cov_next` with the
mean matrix produced by the completed mean phase. -/
noncomputable def cov_update_phase {N L F : ℕ} (p : BaySegParams N L F)
    (comp_coef : Matrix (Fin N) (Fin L) ℝ) (mu_next : Matrix (Fin L) (Fin F) ℝ)
    (cov_prop : Fin L → Matrix (Fin F) (Fin F) ℝ) (cov_unif : Fin L → ℝ)
    (cov0 : Fin L → Matrix (Fin F) (Fin F) ℝ) :
    Fin L → Matrix (Fin F) (Fin F) ℝ :=
  (List.finRange L).foldl (cov_update_step p comp_coef mu_next cov_prop cov_unif) cov0

/-- The UPDATE BETA acceptance ratio (lines 245-264): the candidate's
component coefficients are recomputed from the Gibbs energy of the freshly
drawn labels under the proposed beta. -/
noncomputable def beta_acceptance {N L F : ℕ} (p : BaySegParams N L F) (t : ℝ)
    (new_labels : Fin N → ℕ) (beta_prev beta_prop : ℝ)
    (comp_coef : Matrix (Fin N) (Fin L) ℝ) (mu_next : Matrix (Fin L) (Fin F) ℝ)
    (cov_next : Fin L → Matrix (Fin F) (Fin F) ℝ) : ℝ :=
  let lp_beta_prev := log_prior_density_beta p beta_prev
  let lp_beta_prop := log_prior_density_beta p beta_prop
  let lmd_prev := calc_sum_log_mixture_density p comp_coef mu_next cov_next
  let gibbs_energy_prop := gibbs_energy_mat p.neighborhood new_labels beta_prop
  let comp_coef_prop := calc_labels_prob (gibbs_energy_prop + self_energy) t
  let lmd_prop := calc_sum_log_mixture_density p comp_coef_prop mu_next cov_next
  Real.exp ((lmd_prop + lp_beta_prop) - (lmd_prev + lp_beta_prev))

/-- gibbs_sample (lines 103-273).  Reads the last entries of the four
history lists, draws labels from the energy-derived probabilities (the draw
itself is the oracle `d.new_labels`), recomputes the component coefficients
from the new labels and previous beta, runs the mean phase, then the
covariance phase, then the beta accept/reject, and appends one entry to each
history list. -/
noncomputable def gibbs_sample {N L F : ℕ} (p : BaySegParams N L F) (t : ℝ)
    (beta_jump_length mu_jump_length cov_volume_jump_length
      theta_jump_length : ℝ) (d : GibbsDraws N L F) (s : BaySegState N L F) :
    BaySegState N L F :=
  let mu_prev := s.mus.getLastD 0
  let cov_prev := s.covs.getLastD (fun _ => 0)
  let beta_prev := s.betas.getLastD 0
  let labels_prev := s.labels.getLastD (fun _ => 0)
  let energy_like := calc_energy_like 1 p.obs mu_prev cov_prev
  let gibbs_energy := gibbs_energy_mat p.neighborhood labels_prev beta_prev
  let total_energy := energy_like + self_energy + gibbs_energy
  let labels_prob := calc_labels_prob total_energy t
  let new_labels := d.new_labels
  let gibbs_energy2 := gibbs_energy_mat p.neighborhood new_labels beta_prev
  let energy_for_comp_coef := gibbs_energy2 + self_energy
  let comp_coef := calc_labels_prob energy_for_comp_coef t
  let mu_next := mu_update_phase p comp_coef cov_prev d.mu_prop d.mu_unif mu_prev
  let cov_next := cov_update_phase p comp_coef mu_next d.cov_prop d.cov_unif cov_prev
  let acc := beta_acceptance p t new_labels beta_prev d.beta_prop comp_coef
    mu_next cov_next
  { labels := s.labels ++ [new_labels]
    mus := s.mus ++ [mu_next]
    covs := s.covs ++ [cov_next]
    betas := s.betas ++
      [if acc > 1 ∨ d.beta_unif < acc then d.beta_prop else beta_prev] }

/-- The component coefficients computed from the freshly drawn labels and a
beta value (lines 150-156 and, for the beta proposal, lines 251-253). -/
noncomputable def gibbs_comp_coef {N L F : ℕ} (p : BaySegParams N L F) (t : ℝ)
    (new_labels : Fin N → ℕ) (beta : ℝ) : Matrix (Fin N) (Fin L) ℝ :=
  calc_labels_prob (gibbs_energy_mat p.neighborhood new_labels beta +
    self_energy) t

/-- The mean matrix appended by one `gibbs_sample` call. -/
noncomputable def gibbs_mu_next {N L F : ℕ} (p : BaySegParams N L F) (t : ℝ)
    (d : GibbsDraws N L F) (s : BaySegState N L F) :
    Matrix (Fin L) (Fin F) ℝ :=
  mu_update_phase p (gibbs_comp_coef p t d.new_labels (s.betas.getLastD 0))
    (s.covs.getLastD (fun _ => 0)) d.mu_prop d.mu_unif (s.mus.getLastD 0)

/-- The covariance stack appended by one `gibbs_sample` call; its mean input
is the output of the completed mean phase. -/
noncomputable def gibbs_cov_next {N L F : ℕ} (p : BaySegParams N L F) (t : ℝ)
    (d : GibbsDraws N L F) (s : BaySegState N L F) :
    Fin L → Matrix (Fin F) (Fin F) ℝ :=
  cov_update_phase p (gibbs_comp_coef p t d.new_labels (s.betas.getLastD 0))
    (gibbs_mu_next p t d s) d.cov_prop d.cov_unif (s.covs.getLastD (fun _ => 0))

/-- The beta acceptance ratio of one `gibbs_sample` call. -/
noncomputable def gibbs_beta_acc {N L F : ℕ} (p : BaySegParams N L F) (t : ℝ)
    (d : GibbsDraws N L F) (s : BaySegState N L F) : ℝ :=
  beta_acceptance p t d.new_labels (s.betas.getLastD 0) d.beta_prop
    (gibbs_comp_coef p t d.new_labels (s.betas.getLastD 0))
    (gibbs_mu_next p t d s) (gibbs_cov_next p t d s)

theorem gibbs_sample_eq {N L F : ℕ} (p : BaySegParams N L F)
    (t beta_jump_length mu_jump_length cov_volume_jump_length
      theta_jump_length : ℝ) (d : GibbsDraws N L F) (s : BaySegState N L F) :
    gibbs_sample p t beta_jump_length mu_jump_length cov_volume_jump_length
        theta_jump_length d s =
      { labels := s.labels ++ [d.new_labels]
        mus := s.mus ++ [gibbs_mu_next p t d s]
        covs := s.covs ++ [gibbs_cov_next p t d s]
        betas := s.betas ++
          [if gibbs_beta_acc p t d s > 1 ∨ d.beta_unif < gibbs_beta_acc p t d s
           then d.beta_prop else s.betas.getLastD 0] } :=
  rfl

/-- fit (lines 87-101): `for g in tqdm.trange(n): self.gibbs_sample(...)`. -/
noncomputable def fit {N L F : ℕ} (p : BaySegParams N L F) (n : ℕ)
    (beta_jump_length mu_jump_length cov_volume_jump_length
      theta_jump_length t : ℝ) (draws : ℕ → GibbsDraws N L F)
    (s : BaySegState N L F) : BaySegState N L F :=
  (List.range n).foldl (fun st g => gibbs_sample p t beta_jump_length
    mu_jump_length cov_volume_jump_length theta_jump_length (draws g) st) s

theorem fit_zero {N L F : ℕ} (p : BaySegParams N L F)
    (bjl mjl cjl tjl t : ℝ) (draws : ℕ → GibbsDraws N L F)
    (s : BaySegState N L F) : fit p 0 bjl mjl cjl tjl t draws s = s :=
  rfl

theorem fit_succ {N L F : ℕ} (p : BaySegParams N L F) (n : ℕ)
    (bjl mjl cjl tjl t : ℝ) (draws : ℕ → GibbsDraws N L F)
    (s : BaySegState N L F) :
    fit p (n + 1) bjl mjl cjl tjl t draws s =
      gibbs_sample p t bjl mjl cjl tjl (draws n)
        (fit p n bjl mjl cjl tjl t draws s) := by
  rw [fit, fit, List.range_succ, List.foldl_append, List.foldl_cons,
    List.foldl_nil]

theorem fit_lengths {N L F : ℕ} (p : BaySegParams N L F)
    (bjl mjl cjl tjl t : ℝ) (draws : ℕ → GibbsDraws N L F) (n : ℕ)
    (s : BaySegState N L F) :
    (fit p n bjl mjl cjl tjl t draws s).labels.length = s.labels.length + n ∧
    (fit p n bjl mjl cjl tjl t draws s).mus.length = s.mus.length + n ∧
    (fit p n bjl mjl cjl tjl t draws s).covs.length = s.covs.length + n ∧
    (fit p n bjl mjl cjl tjl t draws s).betas.length = s.betas.length + n := by
  induction n with
  | zero => simp [fit_zero]
  | succ m ih =>
    rw [fit_succ, gibbs_sample_eq]
    simp only [List.length_append, List.length_cons, List.length_nil]
    omega

/-- C1: each call of `gibbs_sample` appends exactly one entry to each of the
four history lists — the beta entry being the previous beta whenever the
proposal is rejected — so `fit n` on a freshly constructed sampler (each
history list holding exactly the initialiser's entry) leaves all four traces
with length `n + 1`. -/
theorem c1_trace_growth {N L F : ℕ} (p : BaySegParams N L F)
    (bjl mjl cjl tjl t : ℝ) (draws : ℕ → GibbsDraws N L F) (n : ℕ)
    (s : BaySegState N L F) (h1 : s.labels.length = 1) (h2 : s.mus.length = 1)
    (h3 : s.covs.length = 1) (h4 : s.betas.length = 1) :
    (∀ (d : GibbsDraws N L F) (s' : BaySegState N L F),
      (gibbs_sample p t bjl mjl cjl tjl d s').labels.length =
          s'.labels.length + 1 ∧
      (gibbs_sample p t bjl mjl cjl tjl d s').mus.length =
          s'.mus.length + 1 ∧
      (gibbs_sample p t bjl mjl cjl tjl d s').covs.length =
          s'.covs.length + 1 ∧
      (gibbs_sample p t bjl mjl cjl tjl d s').betas.length =
          s'.betas.length + 1) ∧
    (∀ (d : GibbsDraws N L F) (s' : BaySegState N L F),
      ¬ (gibbs_beta_acc p t d s' > 1 ∨ d.beta_unif < gibbs_beta_acc p t d s') →
      (gibbs_sample p t bjl mjl cjl tjl d s').betas =
        s'.betas ++ [s'.betas.getLastD 0]) ∧
    ((fit p n bjl mjl cjl tjl t draws s).labels.length = n + 1 ∧
     (fit p n bjl mjl cjl tjl t draws s).mus.length = n + 1 ∧
     (fit p n bjl mjl cjl tjl t draws s).covs.length = n + 1 ∧
     (fit p n bjl mjl cjl tjl t draws s).betas.length = n + 1) := by
  refine ⟨fun d s' => ?_, fun d s' hrej => ?_, ?_⟩
  · rw [gibbs_sample_eq]
    simp
  · rw [gibbs_sample_eq]
    rw [if_neg hrej]
  · have h := fit_lengths p bjl mjl cjl tjl t draws n s
    rw [h1] at h
    rw [h2] at h
    rw [h3] at h
    rw [h4] at h
    omega

/-- Shared concrete sampler instance used by the witnesses: one site, two
labels, one feature. -/
def p1 : BaySegParams 1 2 1 where
  obs := fun _ _ => 0
  neighborhood := fun _ => []
  beta_init := 1
  prior_mu_mean := fun _ _ => 0
  b_sigma := fun _ _ => 0

/-- Shared concrete draw oracle for the witnesses; the covariance proposal
is the (positive-definite) identity matrix for both labels. -/
def d1 : GibbsDraws 1 2 1 where
  new_labels := fun _ => 0
  beta_prop := 1
  mu_prop := 0
  cov_prop := fun _ => 1
  mu_unif := fun _ => 0
  cov_unif := fun _ => 0
  beta_unif := 0

/-- Shared fresh state for the witnesses: each history list holds exactly
the initialiser's entry; the initial covariances are identity matrices. -/
def s1 : BaySegState 1 2 1 where
  labels := [fun _ => 0]
  mus := [0]
  covs := [fun _ => 1]
  betas := [1]

theorem c1_witness :
    (fit p1 2 0 0 0 0 1 (fun _ => d1) s1).labels.length = 2 + 1 ∧
    (fit p1 2 0 0 0 0 1 (fun _ => d1) s1).mus.length = 2 + 1 ∧
    (fit p1 2 0 0 0 0 1 (fun _ => d1) s1).covs.length = 2 + 1 ∧
    (fit p1 2 0 0 0 0 1 (fun _ => d1) s1).betas.length = 2 + 1 :=
  (c1_trace_growth p1 0 0 0 0 1 (fun _ => d1) 2 s1 rfl rfl rfl rfl).2.2

theorem mu_update_step_cases {N L F : ℕ} (p : BaySegParams N L F)
    (cc : Matrix (Fin N) (Fin L) ℝ) (covn : Fin L → Matrix (Fin F) (Fin F) ℝ)
    (prop : Matrix (Fin L) (Fin F) ℝ) (unif : Fin L → ℝ)
    (w : Matrix (Fin L) (Fin F) ℝ) (l : Fin L) :
    mu_update_step p cc covn prop unif w l = w.updateRow l (prop l) ∨
      mu_update_step p cc covn prop unif w l = w := by
  rw [mu_update_step]
  split_ifs
  · exact Or.inl rfl
  · exact Or.inr rfl

theorem mu_update_step_row_ne {N L F : ℕ} (p : BaySegParams N L F)
    (cc : Matrix (Fin N) (Fin L) ℝ) (covn : Fin L → Matrix (Fin F) (Fin F) ℝ)
    (prop : Matrix (Fin L) (Fin F) ℝ) (unif : Fin L → ℝ)
    (w : Matrix (Fin L) (Fin F) ℝ) (l : Fin L) (j : Fin L) (hj : j ≠ l) :
    mu_update_step p cc covn prop unif w l j = w j := by
  rw [mu_update_step]
  split_ifs
  · rw [Matrix.updateRow_ne hj]
  · rfl

theorem mu_foldl_rows {N L F : ℕ} (p : BaySegParams N L F)
    (cc : Matrix (Fin N) (Fin L) ℝ) (covn : Fin L → Matrix (Fin F) (Fin F) ℝ)
    (prop : Matrix (Fin L) (Fin F) ℝ) (unif : Fin L → ℝ)
    (w0 : Matrix (Fin L) (Fin F) ℝ) :
    ∀ (ls : List (Fin L)) (w : Matrix (Fin L) (Fin F) ℝ),
      (∀ j, w j = w0 j ∨ w j = prop j) →
      ∀ j, (ls.foldl (mu_update_step p cc covn prop unif) w) j = w0 j ∨
        (ls.foldl (mu_update_step p cc covn prop unif) w) j = prop j := by
  intro ls
  induction ls with
  | nil => intro w hw j; exact hw j
  | cons l ts ih =>
    intro w hw j
    rw [List.foldl_cons]
    refine ih _ (fun j2 => ?_) j
    rcases mu_update_step_cases p cc covn prop unif w l with hstep | hstep
    · rw [hstep]
      by_cases hj2 : j2 = l
      · subst hj2
        rw [Matrix.updateRow_self]
        exact Or.inr rfl
      · rw [Matrix.updateRow_ne hj2]
        exact hw j2
    · rw [hstep]
      exact hw j2

theorem finRange_decomp {L : ℕ} (l : Fin L) :
    List.finRange L = (List.finRange L).take l.val ++
      l :: (List.finRange L).drop (l.val + 1) := by
  have hlen : l.val < (List.finRange L).length := by
    rw [List.length_finRange]
    exact l.isLt
  have hget : (List.finRange L)[l.val] = l := by
    simp
  conv_lhs => rw [← List.take_append_drop l.val (List.finRange L)]
  rw [List.drop_eq_getElem_cons hlen, hget]

/-- C9: within one `gibbs_sample` call, mean updates run label by label in
increasing order: each step's candidate substitutes only label `l`'s
proposed row into the working matrix (commit-or-keep, other rows
untouched); the phase factors through evaluating each label `l` on the
working matrix produced by the labels before it, with `l`'s step committed
before the remaining labels run; every row of the appended mean matrix is
either the previous iteration's row or the proposed row; and the covariance
phase is computed from the completed mean phase's output, after all mean
updates. -/
theorem c9_sequential_label_updates {N L F : ℕ} (p : BaySegParams N L F)
    (t bjl mjl cjl tjl : ℝ) (d : GibbsDraws N L F) (s : BaySegState N L F) :
    (∀ (cc : Matrix (Fin N) (Fin L) ℝ)
       (covn : Fin L → Matrix (Fin F) (Fin F) ℝ)
       (prop : Matrix (Fin L) (Fin F) ℝ) (unif : Fin L → ℝ)
       (w : Matrix (Fin L) (Fin F) ℝ) (l : Fin L),
       (mu_update_step p cc covn prop unif w l = w.updateRow l (prop l) ∨
        mu_update_step p cc covn prop unif w l = w) ∧
       (∀ j, j ≠ l → mu_update_step p cc covn prop unif w l j = w j)) ∧
    (∀ (cc : Matrix (Fin N) (Fin L) ℝ)
       (covn : Fin L → Matrix (Fin F) (Fin F) ℝ)
       (prop : Matrix (Fin L) (Fin F) ℝ) (unif : Fin L → ℝ)
       (w0 : Matrix (Fin L) (Fin F) ℝ) (l : Fin L),
       mu_update_phase p cc covn prop unif w0 =
         ((List.finRange L).drop (l.val + 1)).foldl
           (mu_update_step p cc covn prop unif)
           (mu_update_step p cc covn prop unif
             (((List.finRange L).take l.val).foldl
               (mu_update_step p cc covn prop unif) w0) l)) ∧
    (∀ j, gibbs_mu_next p t d s j = (s.mus.getLastD 0) j ∨
      gibbs_mu_next p t d s j = d.mu_prop j) ∧
    ((gibbs_sample p t bjl mjl cjl tjl d s).mus =
        s.mus ++ [gibbs_mu_next p t d s] ∧
     (gibbs_sample p t bjl mjl cjl tjl d s).covs = s.covs ++
       [cov_update_phase p
          (gibbs_comp_coef p t d.new_labels (s.betas.getLastD 0))
          (gibbs_mu_next p t d s) d.cov_prop d.cov_unif
          (s.covs.getLastD (fun _ => 0))]) := by
  refine ⟨fun cc covn prop unif w l =>
      ⟨mu_update_step_cases p cc covn prop unif w l,
       fun j hj => mu_update_step_row_ne p cc covn prop unif w l j hj⟩,
    fun cc covn prop unif w0 l => ?_, fun j => ?_, rfl, rfl⟩
  · rw [mu_update_phase]
    conv_lhs => rw [finRange_decomp l]
    rw [List.foldl_append, List.foldl_cons]
  · rw [gibbs_mu_next, mu_update_phase]
    exact mu_foldl_rows p _ _ d.mu_prop d.mu_unif _ _ _
      (fun j2 => Or.inl rfl) j

theorem c9_witness :
    mu_update_step p1 0 (fun _ => 1) 0 (fun _ => 0) 0 1 0 =
      (0 : Matrix (Fin 2) (Fin 1) ℝ) 0 :=
  ((c9_sequential_label_updates p1 1 0 0 0 0 d1 s1).1
    0 (fun _ => 1) 0 (fun _ => 0) 0 1).2 0 (by decide)

theorem cov_update_step_cases {N L F : ℕ} (p : BaySegParams N L F)
    (cc : Matrix (Fin N) (Fin L) ℝ) (mun : Matrix (Fin L) (Fin F) ℝ)
    (prop : Fin L → Matrix (Fin F) (Fin F) ℝ) (unif : Fin L → ℝ)
    (w : Fin L → Matrix (Fin F) (Fin F) ℝ) (l : Fin L) :
    cov_update_step p cc mun prop unif w l = Function.update w l (prop l) ∨
      cov_update_step p cc mun prop unif w l = w := by
  rw [cov_update_step]
  split_ifs
  · exact Or.inl rfl
  · exact Or.inr rfl

theorem cov_foldl_rows {N L F : ℕ} (p : BaySegParams N L F)
    (cc : Matrix (Fin N) (Fin L) ℝ) (mun : Matrix (Fin L) (Fin F) ℝ)
    (prop : Fin L → Matrix (Fin F) (Fin F) ℝ) (unif : Fin L → ℝ)
    (w0 : Fin L → Matrix (Fin F) (Fin F) ℝ) :
    ∀ (ls : List (Fin L)) (w : Fin L → Matrix (Fin F) (Fin F) ℝ),
      (∀ j, w j = w0 j ∨ w j = prop j) →
      ∀ j, (ls.foldl (cov_update_step p cc mun prop unif) w) j = w0 j ∨
        (ls.foldl (cov_update_step p cc mun prop unif) w) j = prop j := by
  intro ls
  induction ls with
  | nil => intro w hw j; exact hw j
  | cons l ts ih =>
    intro w hw j
    rw [List.foldl_cons]
    refine ih _ (fun j2 => ?_) j
    rcases cov_update_step_cases p cc mun prop unif w l with hstep | hstep
    · rw [hstep]
      by_cases hj2 : j2 = l
      · subst hj2
        rw [Function.update_same]
        exact Or.inr rfl
      · rw [Function.update_noteq hj2]
        exact hw j2
    · rw [hstep]
      exact hw j2

theorem getLastD_mem {α : Type*} (l : List α) (dflt : α) (h : l ≠ []) :
    l.getLastD dflt ∈ l := by
  rw [List.getLastD_eq_getLast?, List.getLast?_eq_getLast l h]
  exact List.getLast_mem h

theorem posDef_isSymm {F : ℕ} {M : Matrix (Fin F) (Fin F) ℝ}
    (h : M.PosDef) : M.IsSymm := by
  have h1 := h.1
  rwa [Matrix.IsHermitian, Matrix.conjTranspose_eq_transpose_of_trivial] at h1

theorem gibbs_cov_next_posDef {N L F : ℕ} (p : BaySegParams N L F) (t : ℝ)
    (d : GibbsDraws N L F) (s : BaySegState N L F) (hne : s.covs ≠ [])
    (hlast : ∀ c ∈ s.covs, ∀ l, (c l).PosDef)
    (hprop : ∀ l, (d.cov_prop l).PosDef) :
    ∀ l, (gibbs_cov_next p t d s l).PosDef := by
  intro l
  have hrows := cov_foldl_rows p
    (gibbs_comp_coef p t d.new_labels (s.betas.getLastD 0))
    (gibbs_mu_next p t d s) d.cov_prop d.cov_unif
    (s.covs.getLastD (fun _ => 0)) (List.finRange L)
    (s.covs.getLastD (fun _ => 0)) (fun j => Or.inl rfl) l
  rw [gibbs_cov_next, cov_update_phase]
  rcases hrows with hr | hr
  · rw [hr]
    exact hlast _ (getLastD_mem _ _ hne) l
  · rw [hr]
    exact hprop l

theorem fit_covs_posDef {N L F : ℕ} (p : BaySegParams N L F)
    (bjl mjl cjl tjl t : ℝ) (draws : ℕ → GibbsDraws N L F) (n : ℕ)
    (s : BaySegState N L F) (hne : s.covs ≠ [])
    (hinit : ∀ c ∈ s.covs, ∀ l, (c l).PosDef)
    (hprop : ∀ k l, ((draws k).cov_prop l).PosDef) :
    ∀ c ∈ (fit p n bjl mjl cjl tjl t draws s).covs, ∀ l, (c l).PosDef := by
  induction n with
  | zero => simpa [fit_zero] using hinit
  | succ m ih =>
    have hlen := (fit_lengths p bjl mjl cjl tjl t draws m s).2.2.1
    have hmne : (fit p m bjl mjl cjl tjl t draws s).covs ≠ [] := by
      have hpos : 0 < s.covs.length := List.length_pos.mpr hne
      exact List.ne_nil_of_length_pos (by omega)
    rw [fit_succ, gibbs_sample_eq]
    intro c hc l
    simp only [List.mem_append, List.mem_singleton] at hc
    rcases hc with hc | hc
    · exact ih c hc l
    · rw [hc]
      exact gibbs_cov_next_posDef p t (draws m)
        (fit p m bjl mjl cjl tjl t draws s) hmne ih (hprop m) l

/-- C3: along every completed run, each covariance matrix stored in the
trace is symmetric positive-definite, provided the initialiser's
covariances are positive-definite (they come from the external GMM fit) and
each drawn proposal stack is; and every candidate covariance reconstructed
by `propose_cov` as `V' D' V'ᵀ` from the SVD factors of a symmetric
positive-definite input (an orthogonal `V`) is itself symmetric
positive-definite, whatever the jumps — which is what makes the proposal
hypothesis automatic. -/
theorem c3_covariance_trace_spd {N L F : ℕ} (p : BaySegParams N L F)
    (bjl mjl cjl tjl t : ℝ) (draws : ℕ → GibbsDraws N L F) (n : ℕ)
    (s : BaySegState N L F) (hne : s.covs ≠ [])
    (hinit : ∀ c ∈ s.covs, ∀ l, (c l).PosDef)
    (hprop : ∀ k l, ((draws k).cov_prop l).PosDef) :
    (∀ c ∈ (fit p n bjl mjl cjl tjl t draws s).covs, ∀ l,
      (c l).IsSymm ∧ (c l).PosDef) ∧
    (∀ (v : Fin L → Matrix (Fin F) (Fin F) ℝ) (dv : Fin L → Fin F → ℝ)
       (lj : Fin L → Fin F → ℝ) (tj : ℕ → ℝ),
       (∀ l, (v l)ᵀ * v l = 1) →
       ∀ l, (propose_cov v dv lj tj l).IsSymm ∧
         (propose_cov v dv lj tj l).PosDef) := by
  constructor
  · intro c hc l
    have hpd := fit_covs_posDef p bjl mjl cjl tjl t draws n s hne hinit hprop
      c hc l
    exact ⟨posDef_isSymm hpd, hpd⟩
  · intro v dv lj tj hv l
    have h := propose_cov_label_posDef (dv l) (lj l) tj (hv l)
    exact ⟨h.2, h.1⟩

theorem c3_witness :
    ((s1.covs.getLastD (fun _ => 0)) 0).IsSymm ∧
    ((s1.covs.getLastD (fun _ => 0)) 0).PosDef :=
  (c3_covariance_trace_spd p1 0 0 0 0 1 (fun _ => d1) 1 s1
    (List.cons_ne_nil _ _)
    (fun c hc l => by
      have hc1 : c = fun _ => (1 : Matrix (Fin 1) (Fin 1) ℝ) := by
        simpa [s1] using hc
      rw [hc1]
      exact Matrix.PosDef.one)
    (fun k l => Matrix.PosDef.one)).1
    (fun _ => (1 : Matrix (Fin 1) (Fin 1) ℝ))
    (by
      rw [fit_succ, gibbs_sample_eq]
      exact List.mem_append_left _ (List.mem_cons_self _ _))
    0

/-! ## Error refinement for claim C7

The source contains no `try`/`except` anywhere.  During the covariance
update, `log_prior_density_cov` calls `np.linalg.inv(r)`, which raises
`numpy.linalg.LinAlgError` exactly when the correlation matrix `r` is
singular; the uncaught exception leaves `gibbs_sample` (and aborts `fit`).
`log_prior_density_cov_e` refines `log_prior_density_cov` with this failure
(`Except.error ()` iff `det r = 0`); `cov_update_step_e`, `cov_update_phase_e`
and `gibbs_sample_e` thread it through the covariance block without any
handler, exactly as the Python control flow does. -/

noncomputable def log_prior_density_cov_e {N L F : ℕ} (p : BaySegParams N L F)
    (cov : Fin L → Matrix (Fin F) (Fin F) ℝ) (l : Fin L) : Except Unit ℝ :=
  if (cov_corr (cov l)).det = 0 then Except.error ()
  else Except.ok (log_prior_density_cov p cov l)

noncomputable def cov_update_step_e {N L F : ℕ} (p : BaySegParams N L F)
    (comp_coef : Matrix (Fin N) (Fin L) ℝ) (mu_next : Matrix (Fin L) (Fin F) ℝ)
    (cov_prop : Fin L → Matrix (Fin F) (Fin F) ℝ) (cov_unif : Fin L → ℝ)
    (cov_next : Fin L → Matrix (Fin F) (Fin F) ℝ) (l : Fin L) :
    Except Unit (Fin L → Matrix (Fin F) (Fin F) ℝ) :=
  (log_prior_density_cov_e p cov_next l).bind fun _ =>
    (log_prior_density_cov_e p (Function.update cov_next l (cov_prop l)) l).bind
      fun _ => Except.ok (cov_update_step p comp_coef mu_next cov_prop cov_unif
        cov_next l)

noncomputable def cov_update_phase_e {N L F : ℕ} (p : BaySegParams N L F)
    (comp_coef : Matrix (Fin N) (Fin L) ℝ) (mu_next : Matrix (Fin L) (Fin F) ℝ)
    (cov_prop : Fin L → Matrix (Fin F) (Fin F) ℝ) (cov_unif : Fin L → ℝ)
    (cov0 : Fin L → Matrix (Fin F) (Fin F) ℝ) :
    Except Unit (Fin L → Matrix (Fin F) (Fin F) ℝ) :=
  (List.finRange L).foldlM
    (cov_update_step_e p comp_coef mu_next cov_prop cov_unif) cov0

/-- gibbs_sample with the error-refined covariance block: no handler exists,
so an error raised inside the covariance update propagates out of the whole
call (the labels and means appended before the failure are lost with the
aborted call). -/
noncomputable def gibbs_sample_e {N L F : ℕ} (p : BaySegParams N L F) (t : ℝ)
    (beta_jump_length mu_jump_length cov_volume_jump_length
      theta_jump_length : ℝ) (d : GibbsDraws N L F) (s : BaySegState N L F) :
    Except Unit (BaySegState N L F) :=
  (cov_update_phase_e p (gibbs_comp_coef p t d.new_labels (s.betas.getLastD 0))
      (gibbs_mu_next p t d s) d.cov_prop d.cov_unif
      (s.covs.getLastD (fun _ => 0))).bind fun cov_next =>
    Except.ok
      { labels := s.labels ++ [d.new_labels]
        mus := s.mus ++ [gibbs_mu_next p t d s]
        covs := s.covs ++ [cov_next]
        betas := s.betas ++
          [if beta_acceptance p t d.new_labels (s.betas.getLastD 0) d.beta_prop
              (gibbs_comp_coef p t d.new_labels (s.betas.getLastD 0))
              (gibbs_mu_next p t d s) cov_next > 1 ∨
            d.beta_unif < beta_acceptance p t d.new_labels (s.betas.getLastD 0)
              d.beta_prop
              (gibbs_comp_coef p t d.new_labels (s.betas.getLastD 0))
              (gibbs_mu_next p t d s) cov_next
           then d.beta_prop else s.betas.getLastD 0] }

theorem cov_update_step_e_error {N L F : ℕ} (p : BaySegParams N L F)
    (cc : Matrix (Fin N) (Fin L) ℝ) (mun : Matrix (Fin L) (Fin F) ℝ)
    (prop : Fin L → Matrix (Fin F) (Fin F) ℝ) (unif : Fin L → ℝ)
    (w : Fin L → Matrix (Fin F) (Fin F) ℝ) (l : Fin L)
    (h1 : (cov_corr (w l)).det ≠ 0) (h2 : (cov_corr (prop l)).det = 0) :
    cov_update_step_e p cc mun prop unif w l = Except.error () := by
  rw [cov_update_step_e, log_prior_density_cov_e, if_neg h1,
    log_prior_density_cov_e, Function.update_same, if_pos h2]
  rfl

theorem gibbs_sample_e_error_of_phase {N L F : ℕ} (p : BaySegParams N L F)
    (t bjl mjl cjl tjl : ℝ) (d : GibbsDraws N L F) (s : BaySegState N L F)
    (e : Unit)
    (h : cov_update_phase_e p
        (gibbs_comp_coef p t d.new_labels (s.betas.getLastD 0))
        (gibbs_mu_next p t d s) d.cov_prop d.cov_unif
        (s.covs.getLastD (fun _ => 0)) = Except.error e) :
    gibbs_sample_e p t bjl mjl cjl tjl d s = Except.error e := by
  rw [gibbs_sample_e, h]
  rfl

/-- A singular (hence non-invertible) proposed covariance layer: its
correlation matrix has determinant zero, so `np.linalg.inv` raises. -/
def cov_singular : Matrix (Fin 2) (Fin 2) ℝ := Matrix.of ![![1, 1], ![1, 1]]

def p2 : BaySegParams 1 1 2 where
  obs := fun _ _ => 0
  neighborhood := fun _ => []
  beta_init := 1
  prior_mu_mean := fun _ _ => 0
  b_sigma := fun _ _ => 0

def d2 : GibbsDraws 1 1 2 where
  new_labels := fun _ => 0
  beta_prop := 1
  mu_prop := 0
  cov_prop := fun _ => cov_singular
  mu_unif := fun _ => 0
  cov_unif := fun _ => 0
  beta_unif := 0

def s2 : BaySegState 1 1 2 where
  labels := [fun _ => 0]
  mus := [0]
  covs := [fun _ => 1]
  betas := [1]

theorem cov_corr_one {F : ℕ} : cov_corr (1 : Matrix (Fin F) (Fin F) ℝ) = 1 := by
  rw [cov_corr]
  have h : (fun i : Fin F =>
      1 / Real.sqrt ((1 : Matrix (Fin F) (Fin F) ℝ) i i)) = fun _ => 1 := by
    funext i
    rw [Matrix.one_apply_eq, Real.sqrt_one, one_div_one]
  rw [h, Matrix.diagonal_one, Matrix.one_mul, Matrix.mul_one]

theorem cov_corr_cov_singular : cov_corr cov_singular = cov_singular := by
  rw [cov_corr]
  have h : (fun i : Fin 2 => 1 / Real.sqrt (cov_singular i i)) = fun _ => 1 := by
    funext i
    fin_cases i <;> norm_num [cov_singular]
  rw [h, Matrix.diagonal_one, Matrix.one_mul, Matrix.mul_one]

theorem cov_singular_det : cov_singular.det = 0 := by
  rw [cov_singular, Matrix.det_fin_two_of]
  norm_num

/-- C7 counterexample: on a concrete state whose current covariances are
identity matrices and whose proposed covariance layer is singular, the
error raised during the covariance prior evaluation escapes the whole
`gibbs_sample` call — the iteration does not continue with that block
rejected, contradicting the claim that such numerical errors never escape
an iteration. -/
theorem c7_counterexample :
    gibbs_sample_e p2 1 0 0 0 0 d2 s2 = Except.error () := by
  apply gibbs_sample_e_error_of_phase
  rw [cov_update_phase_e]
  have hfr : List.finRange 1 = [(0 : Fin 1)] := rfl
  rw [hfr, List.foldlM_cons]
  have hlast : s2.covs.getLastD (fun _ => 0) =
      fun _ : Fin 1 => (1 : Matrix (Fin 2) (Fin 2) ℝ) := rfl
  rw [hlast]
  rw [cov_update_step_e_error _ _ _ _ _ _ _
    (by
      show (cov_corr (1 : Matrix (Fin 2) (Fin 2) ℝ)).det ≠ 0
      rw [cov_corr_one, Matrix.det_one]
      exact one_ne_zero)
    (by
      show (cov_corr cov_singular).det = 0
      rw [cov_corr_cov_singular, cov_singular_det])]
  rfl

/-- C7 (amended): numerical errors from the covariance block do escape the
iteration: when the proposed layer's correlation matrix is singular (while
the current one is regular, so the failure happens at the proposal's prior
evaluation), the covariance block update raises, and an erroring covariance
block aborts the whole `gibbs_sample` call — there is no block-local
recovery treating the acceptance ratio as 0. -/
theorem c7_numerical_error_escapes {N L F : ℕ} :
    (∀ (p : BaySegParams N L F) (cc : Matrix (Fin N) (Fin L) ℝ)
       (mun : Matrix (Fin L) (Fin F) ℝ)
       (prop : Fin L → Matrix (Fin F) (Fin F) ℝ) (unif : Fin L → ℝ)
       (w : Fin L → Matrix (Fin F) (Fin F) ℝ) (l : Fin L),
       (cov_corr (w l)).det ≠ 0 → (cov_corr (prop l)).det = 0 →
       cov_update_step_e p cc mun prop unif w l = Except.error ()) ∧
    (∀ (p : BaySegParams N L F) (t bjl mjl cjl tjl : ℝ)
       (d : GibbsDraws N L F) (s : BaySegState N L F) (e : Unit),
       cov_update_phase_e p
           (gibbs_comp_coef p t d.new_labels (s.betas.getLastD 0))
           (gibbs_mu_next p t d s) d.cov_prop d.cov_unif
           (s.covs.getLastD (fun _ => 0)) = Except.error e →
       gibbs_sample_e p t bjl mjl cjl tjl d s = Except.error e) :=
  ⟨fun p cc mun prop unif w l h1 h2 =>
      cov_update_step_e_error p cc mun prop unif w l h1 h2,
   fun p t bjl mjl cjl tjl d s e h =>
      gibbs_sample_e_error_of_phase p t bjl mjl cjl tjl d s e h⟩

theorem c7_witness :
    cov_update_step_e p2 0 0 d2.cov_prop d2.cov_unif
      (fun _ : Fin 1 => (1 : Matrix (Fin 2) (Fin 2) ℝ)) 0 =
      Except.error () :=
  c7_numerical_error_escapes.1 p2 0 0 d2.cov_prop d2.cov_unif
    (fun _ => 1) 0
    (by
      show (cov_corr (1 : Matrix (Fin 2) (Fin 2) ℝ)).det ≠ 0
      rw [cov_corr_one, Matrix.det_one]
      exact one_ne_zero)
    (by
      show (cov_corr cov_singular).det = 0
      rw [cov_corr_cov_singular, cov_singular_det])

/-- C8 counterexample: with physical dimension 2 the sampler does not fail
explicitly — `calc_energy_like` silently returns the all-zero energy matrix
(the `else` path leaves the zero-initialised array untouched), the very
no-op the claim says is prevented by an explicit ConfigurationError. -/
theorem c8_counterexample :
    calc_energy_like 2 (fun (_ : Fin 1) (_ : Fin 1) => (0 : ℝ))
      (0 : Matrix (Fin 1) (Fin 1) ℝ)
      (fun _ => (1 : Matrix (Fin 1) (Fin 1) ℝ)) = 0 := by
  rw [calc_energy_like, if_neg (by norm_num)]

/-- C8 (amended): for any physical dimension other than 1, construction
raises no error and the likelihood-energy computation silently returns the
all-zero matrix; the failure surfaces only when `calc_gibbs_energy` falls
through all its dimension branches and hits `return gibbs_energy` with the
variable unbound (an accidental unbound-local error, not a configuration
error raised at construction). -/
theorem c8_dim_not_one_silent_noop {N L F : ℕ} (dim : ℕ) (hdim : dim ≠ 1)
    (obs : Fin N → Fin F → ℝ) (mu : Matrix (Fin L) (Fin F) ℝ)
    (cov : Fin L → Matrix (Fin F) (Fin F) ℝ) (nbh : Fin N → List (Fin N))
    (labels : Fin N → ℕ) (beta : ℝ) :
    calc_energy_like dim obs mu cov = 0 ∧
    (calc_gibbs_energy_dim dim nbh labels beta :
        Except Unit (Matrix (Fin N) (Fin L) ℝ)) = Except.error () := by
  constructor
  · rw [calc_energy_like, if_neg hdim]
  · rw [calc_gibbs_energy_dim, if_neg hdim]

theorem c8_witness :
    calc_energy_like 3 (fun (_ : Fin 1) (_ : Fin 1) => (0 : ℝ))
        (0 : Matrix (Fin 1) (Fin 1) ℝ)
        (fun _ => (1 : Matrix (Fin 1) (Fin 1) ℝ)) = 0 ∧
    (calc_gibbs_energy_dim 3 (fun _ : Fin 1 => []) (fun _ => 0) 1 :
        Except Unit (Matrix (Fin 1) (Fin 1) ℝ)) = Except.error () :=
  c8_dim_not_one_silent_noop 3 (by decide)
    (fun (_ : Fin 1) (_ : Fin 1) => (0 : ℝ))
    (0 : Matrix (Fin 1) (Fin 1) ℝ) (fun _ => (1 : Matrix (Fin 1) (Fin 1) ℝ))
    (fun _ => []) (fun _ => 0) 1

end Bayseg
